import Mathlib

/-!
Verification of the pricing-and-risk engine of the option-visualizer repository
(`backend/calculator.py`), against its natural-language specification.

The Python code is embedded shallowly over the real numbers: Python floats
become `ℝ`, `numpy`/`scipy` transcendental functions become their Mathlib
counterparts (`Real.exp`, `Real.log`, `Real.sqrt`, and the standard normal
CDF written as a Lebesgue integral of the Gaussian density), Python `None`
becomes `Option`, and the `ValueError` raised on an empty position list
becomes `Except.error`.  `try/except` blocks guarding floating-point faults
have no counterpart in exact real arithmetic, where every embedded operation
is total, so the `try` bodies are embedded directly.
-/

open Real MeasureTheory Set Filter

noncomputable section

namespace OptionViz

/-- Option kind.  The source passes the strings `'C'` and `'P'` and tests
`option_type.upper() == 'C'`, treating every non-`'C'` string as a put. -/
inductive OptionType
  | C
  | P
deriving DecidableEq

/-- Exercise style.  The source passes the strings `"European"` / `"American"`
and tests `option_style == "American"`, treating every other string as
European. -/
inductive OptionStyle
  | European
  | American
deriving DecidableEq

/-- Embeds `calculate_intrinsic_value`: `max(0, S - K)` for calls,
`max(0, K - S)` for puts. -/
def calculate_intrinsic_value (t : OptionType) (S K : ℝ) : ℝ :=
  match t with
  | .C => max 0 (S - K)
  | .P => max 0 (K - S)

/-- The standard normal density `exp(-x²/2)/√(2π)`, embedding `scipy.stats.norm.pdf`. -/
def normPdf (x : ℝ) : ℝ := (Real.sqrt (2 * Real.pi))⁻¹ * Real.exp (-x ^ 2 / 2)

/-- The standard normal cumulative distribution function `Φ`, embedding
`scipy.stats.norm.cdf`. -/
def normCdf (x : ℝ) : ℝ := ∫ t in Iic x, normPdf t

/-- Embeds `calculate_d1_d2`.  The Python function returns the pair
`(None, None)` when `time_to_expiration <= 0 or volatility <= 0`, embedded
here as `none`. -/
def calculate_d1_d2 (stock_price strike time_to_expiration risk_free_rate volatility
    dividend_yield : ℝ) : Option (ℝ × ℝ) :=
  if time_to_expiration ≤ 0 ∨ volatility ≤ 0 then none
  else
    let adjusted_rate := risk_free_rate - dividend_yield
    let d1 := (Real.log (stock_price / strike) +
        (adjusted_rate + 0.5 * volatility ^ 2) * time_to_expiration) /
        (volatility * Real.sqrt time_to_expiration)
    some (d1, d1 - volatility * Real.sqrt time_to_expiration)

/-- Embeds `get_optimal_binomial_steps`: 50 steps below 7 DTE, 75 below 30,
100 otherwise. -/
def get_optimal_binomial_steps (days_to_expiration : ℤ) : ℕ :=
  if days_to_expiration < 7 then 50
  else if days_to_expiration < 30 then 75
  else 100

/-- Spot price at lattice node `(step, i)` of the recombining binomial tree:
`S·u^(step-i)·d^i`, as computed by both the terminal-layer loop and the
backward-induction loop of `calculate_american_option_binomial`. -/
def nodeSpot (S u d : ℝ) (step i : ℕ) : ℝ := S * u ^ (step - i) * d ^ i

/-- Value of the binomial-lattice node that is `rem` layers above the terminal
layer, at down-count `i`, for a lattice of `steps` periods (so the node sits at
time step `steps - rem`).  This is the functional form of the source's
in-place backward loop: the loop overwrites `option_values[i]` in increasing
`i` using the old `option_values[i]` and `option_values[i+1]`, which are the
two successor values, so each pass computes exactly the recursion below.
The `rem = 0` equation is the terminal layer (intrinsic payoff at the node's
spot) and the `rem + 1` equation is
`max(disc·(p·value_up + (1-p)·value_down), intrinsic payoff at the node's spot)`. -/
def binomNode (t : OptionType) (S K u d p disc : ℝ) (steps : ℕ) : ℕ → ℕ → ℝ
  | 0, i => calculate_intrinsic_value t (nodeSpot S u d steps i) K
  | rem + 1, i =>
      max (disc * (p * binomNode t S K u d p disc steps rem i +
            (1 - p) * binomNode t S K u d p disc steps rem (i + 1)))
        (calculate_intrinsic_value t (nodeSpot S u d (steps - (rem + 1)) i) K)

/-- Embeds `calculate_american_option_binomial`.  The two guard branches
return the intrinsic value; the main branch builds the recombining lattice
with `dt = (days/365)/steps`, `u = e^(σ√dt)`, `d = 1/u`,
`p = (e^((r-q)·dt) - d)/(u - d)`, `disc = e^(-r·dt)` and returns the root of
the backward induction (`binomNode … steps steps 0`).  The `except` fallback
of the source is unreachable in exact real arithmetic. -/
def calculate_american_option_binomial (t : OptionType) (stock_price strike : ℝ)
    (days_to_expiration : ℤ) (risk_free_rate implied_volatility dividend_yield : ℝ)
    (steps : ℕ := 100) : ℝ :=
  if days_to_expiration ≤ 0 then calculate_intrinsic_value t stock_price strike
  else if implied_volatility ≤ 0 ∨ stock_price ≤ 0 ∨ strike ≤ 0 then
    calculate_intrinsic_value t stock_price strike
  else
    let time_to_expiration : ℝ := (days_to_expiration : ℝ) / 365
    let dt := time_to_expiration / (steps : ℝ)
    let u := Real.exp (implied_volatility * Real.sqrt dt)
    let d := 1 / u
    let a := Real.exp ((risk_free_rate - dividend_yield) * dt)
    let p := (a - d) / (u - d)
    let disc := Real.exp (-risk_free_rate * dt)
    binomNode t stock_price strike u d p disc steps steps 0

/-- Embeds `calculate_black_scholes_price`.  American style routes to the
binomial pricer (with its default 100 steps); degenerate European inputs fall
back to the intrinsic value; otherwise the closed-form Black-Scholes-Merton
formula with continuous dividend yield is evaluated. -/
def calculate_black_scholes_price (t : OptionType) (stock_price strike : ℝ)
    (days_to_expiration : ℤ) (risk_free_rate implied_volatility dividend_yield : ℝ)
    (option_style : OptionStyle := .European) : ℝ :=
  if option_style = .American then
    calculate_american_option_binomial t stock_price strike days_to_expiration
      risk_free_rate implied_volatility dividend_yield 100
  else if days_to_expiration ≤ 0 then calculate_intrinsic_value t stock_price strike
  else
    let time_to_expiration : ℝ := (days_to_expiration : ℝ) / 365
    if time_to_expiration ≤ 0 ∨ implied_volatility ≤ 0 then
      calculate_intrinsic_value t stock_price strike
    else
      match calculate_d1_d2 stock_price strike time_to_expiration risk_free_rate
          implied_volatility dividend_yield with
      | none => calculate_intrinsic_value t stock_price strike
      | some (d1, d2) =>
        match t with
        | .C =>
            stock_price * Real.exp (-dividend_yield * time_to_expiration) * normCdf d1 -
              strike * Real.exp (-risk_free_rate * time_to_expiration) * normCdf d2
        | .P =>
            strike * Real.exp (-risk_free_rate * time_to_expiration) * normCdf (-d2) -
              stock_price * Real.exp (-dividend_yield * time_to_expiration) * normCdf (-d1)

/-- The 5-tuple of risk sensitivities returned by the Greeks calculators. -/
structure Greeks where
  delta : ℝ
  gamma : ℝ
  theta : ℝ
  vega : ℝ
  rho : ℝ

/-- The zero 5-tuple returned on degenerate inputs. -/
def zeroGreeks : Greeks := ⟨0, 0, 0, 0, 0⟩

/-- Embeds `calculate_american_greeks_finite_diff`: symmetric finite
differences of the binomial pricer around the base price, every perturbed
evaluation reusing the step count `get_optimal_binomial_steps days` chosen
for the base evaluation.  The `ThreadPoolExecutor` fan-out of the source only
parallelises these pure evaluations and does not change their values; the
`except` fallback is unreachable in exact real arithmetic. -/
def calculate_american_greeks_finite_diff (t : OptionType) (stock_price strike : ℝ)
    (days_to_expiration : ℤ) (risk_free_rate implied_volatility dividend_yield : ℝ) :
    Greeks :=
  if days_to_expiration ≤ 0 then zeroGreeks
  else if stock_price ≤ 0 ∨ strike ≤ 0 ∨ implied_volatility ≤ 0 then zeroGreeks
  else
    let steps := get_optimal_binomial_steps days_to_expiration
    let base_price := calculate_american_option_binomial t stock_price strike
      days_to_expiration risk_free_rate implied_volatility dividend_yield steps
    let dS := stock_price * 0.01
    let price_up := calculate_american_option_binomial t (stock_price + dS) strike
      days_to_expiration risk_free_rate implied_volatility dividend_yield steps
    let price_down := calculate_american_option_binomial t (stock_price - dS) strike
      days_to_expiration risk_free_rate implied_volatility dividend_yield steps
    let delta := (price_up - price_down) / (2 * dS)
    let gamma := (price_up - 2 * base_price + price_down) / dS ^ 2
    let theta :=
      if 1 < days_to_expiration then
        calculate_american_option_binomial t stock_price strike
          (days_to_expiration - 1) risk_free_rate implied_volatility dividend_yield steps -
          base_price
      else -base_price
    let vega := (calculate_american_option_binomial t stock_price strike
        days_to_expiration risk_free_rate (implied_volatility + 0.01) dividend_yield steps -
      calculate_american_option_binomial t stock_price strike
        days_to_expiration risk_free_rate (implied_volatility - 0.01) dividend_yield steps) / 2
    let rho := (calculate_american_option_binomial t stock_price strike
        days_to_expiration (risk_free_rate + 0.01) implied_volatility dividend_yield steps -
      calculate_american_option_binomial t stock_price strike
        days_to_expiration (risk_free_rate - 0.01) implied_volatility dividend_yield steps) / 2
    ⟨delta, gamma, theta, vega, rho⟩

/-- Embeds `_calculate_local_greeks`: finite differences for American style,
otherwise the analytic Black-Scholes-Merton Greeks with dividend adjustment
(zero 5-tuple on degenerate inputs). -/
def calculate_local_greeks (t : OptionType) (stock_price strike : ℝ)
    (days_to_expiration : ℤ) (risk_free_rate implied_volatility dividend_yield : ℝ)
    (option_style : OptionStyle) : Greeks :=
  if option_style = .American then
    calculate_american_greeks_finite_diff t stock_price strike days_to_expiration
      risk_free_rate implied_volatility dividend_yield
  else if days_to_expiration ≤ 0 then zeroGreeks
  else
    let time_to_expiration : ℝ := (days_to_expiration : ℝ) / 365
    if time_to_expiration ≤ 0 ∨ implied_volatility ≤ 0 then zeroGreeks
    else
      match calculate_d1_d2 stock_price strike time_to_expiration risk_free_rate
          implied_volatility dividend_yield with
      | none => zeroGreeks
      | some (d1, d2) =>
        let discount_factor := Real.exp (-dividend_yield * time_to_expiration)
        let delta :=
          match t with
          | .C => discount_factor * normCdf d1
          | .P => -discount_factor * normCdf (-d1)
        let gamma := discount_factor * normPdf d1 /
          (stock_price * implied_volatility * Real.sqrt time_to_expiration)
        let theta :=
          match t with
          | .C => (-(stock_price * discount_factor * normPdf d1 * implied_volatility) /
                (2 * Real.sqrt time_to_expiration) -
              risk_free_rate * strike * Real.exp (-risk_free_rate * time_to_expiration) *
                normCdf d2 +
              dividend_yield * stock_price * discount_factor * normCdf d1) / 365
          | .P => (-(stock_price * discount_factor * normPdf d1 * implied_volatility) /
                (2 * Real.sqrt time_to_expiration) +
              risk_free_rate * strike * Real.exp (-risk_free_rate * time_to_expiration) *
                normCdf (-d2) -
              dividend_yield * stock_price * discount_factor * normCdf (-d1)) / 365
        let vega := stock_price * discount_factor * normPdf d1 *
          Real.sqrt time_to_expiration / 100
        let rho :=
          match t with
          | .C => strike * time_to_expiration *
              Real.exp (-risk_free_rate * time_to_expiration) * normCdf d2 / 100
          | .P => -strike * time_to_expiration *
              Real.exp (-risk_free_rate * time_to_expiration) * normCdf (-d2) / 100
        ⟨delta, gamma, theta, vega, rho⟩

/-- Embeds `calculate_option_greeks`, the Greeks router, with the optional
external (Tastytrade) Greeks collaborator modelled as unavailable — the
client is disabled or returns no data, so the router always falls through to
the local calculation.  The collaborator performs network I/O and is outside
the pure pricing core. -/
def calculate_option_greeks (t : OptionType) (stock_price strike : ℝ)
    (days_to_expiration : ℤ) (risk_free_rate implied_volatility dividend_yield : ℝ)
    (option_style : OptionStyle) : Greeks :=
  calculate_local_greeks t stock_price strike days_to_expiration risk_free_rate
    implied_volatility dividend_yield option_style

/-- One option leg, embedding the position dicts consumed by `calculate_pl`.
The expiration descriptor is abstracted to the signed day difference
`(exp_date - current_date).days` that `market_data.calculate_days_to_expiration`
derives from the expiration string and the evaluation date; the `symbol` and
`manual_price` keys play no role in the embedded computation (the external
Greeks collaborator is modelled as unavailable). -/
structure Position where
  qty : ℤ
  strike : ℝ
  type : OptionType
  expiration_days : ℤ
  manual_iv : Option ℝ
  dividend_yield : Option ℝ
  style : Option OptionStyle

/-- Embeds `market_data.calculate_days_to_expiration`: the signed day
difference clamped below at 0 (`max(0, dte)`). -/
def calculate_days_to_expiration (pos : Position) : ℤ := max 0 pos.expiration_days

/-- The market snapshot dict.  `dividend_yield` models the optional
`'dividend_yield'` key read with `market_data.get('dividend_yield', 0.0)`. -/
structure MarketData where
  current_price : ℝ
  implied_volatility : ℝ
  risk_free_rate : ℝ
  dividend_yield : Option ℝ

/-- Embeds the Python expression `value or default` applied to an optional
float: `None` and `0` (both falsy) select the default, any nonzero float is
kept.  Used for the `manual_iv` and `dividend_yield` position overrides. -/
def orDefault (v : Option ℝ) (dflt : ℝ) : ℝ :=
  match v with
  | none => dflt
  | some x => if x = 0 then dflt else x

/-- The per-position implied volatility used by `calculate_pl`:
`pos.get('manual_iv') or default_iv`. -/
def positionIV (pos : Position) (md : MarketData) : ℝ :=
  orDefault pos.manual_iv md.implied_volatility

/-- The per-position dividend yield used by `calculate_pl`:
`pos.get('dividend_yield') or default_dividend_yield`, where the default is
`market_data.get('dividend_yield', 0.0)`. -/
def positionDivYield (pos : Position) (md : MarketData) : ℝ :=
  orDefault pos.dividend_yield (md.dividend_yield.getD 0)

/-- The per-position exercise style used by `calculate_pl`:
`pos.get('style', 'American')`. -/
def positionStyle (pos : Position) : OptionStyle := pos.style.getD .American

/-- Embeds the `get_intrinsic_pl` closure of `calculate_pl`:
`credit + Σ qty·intrinsic(type, price, strike)·100`. -/
def get_intrinsic_pl (positions : List Position) (credit : ℝ) (stock_price : ℝ) : ℝ :=
  credit + (positions.map (fun pos =>
    (pos.qty : ℝ) * calculate_intrinsic_value pos.type stock_price pos.strike * 100)).sum

/-- Embeds the theoretical branch of the `get_theoretical_pl` closure of
`calculate_pl` (the `can_calculate_bs` case):
`credit + Σ qty·price(type, price, strike, dte, r, iv, q, style)·100` with the
per-position overrides applied. -/
def get_theoretical_pl (positions : List Position) (credit : ℝ) (md : MarketData)
    (stock_price : ℝ) : ℝ :=
  credit + (positions.map (fun pos =>
    (pos.qty : ℝ) * calculate_black_scholes_price pos.type stock_price pos.strike
      (calculate_days_to_expiration pos) md.risk_free_rate (positionIV pos md)
      (positionDivYield pos md) (positionStyle pos) * 100)).sum

/-- Insert `x` into an already sorted duplicate-free list, keeping it sorted
and duplicate-free.  Building block for the embedding of Python's
`sorted(list(set(...)))`. -/
def insertSortedDedup (x : ℝ) : List ℝ → List ℝ
  | [] => [x]
  | y :: ys =>
      if x < y then x :: y :: ys
      else if x = y then y :: ys
      else y :: insertSortedDedup x ys

/-- Embeds Python's `sorted(list(set(l)))` for a list of reals: the strictly
increasing enumeration of the distinct elements of `l`. -/
def sortedDedup (l : List ℝ) : List ℝ := l.foldr insertSortedDedup []

/-- Embeds `np.arange(start, end + 1, 1)`: the integers `start, …, end` as
reals (empty when `end < start`). -/
def gridPrices (start stop : ℤ) : List ℝ :=
  (List.range (stop + 1 - start).toNat).map (fun k : ℕ => ((start + (k : ℤ) : ℤ) : ℝ))

/-- Embeds the linear interpolation of `calculate_pl`'s breakeven search:
`p1 + (0 - pl1)·(p2 - p1)/(pl2 - pl1)`. -/
def interpRoot (p1 p2 pl1 pl2 : ℝ) : ℝ := p1 + (0 - pl1) * (p2 - p1) / (pl2 - pl1)

/-- Embeds the exact-breakeven loop of `calculate_pl` over the sorted
check-point list: for each adjacent pair, emit `p1` when its P/L is exactly
zero and the interpolated zero-crossing when the P/L changes sign; finally
emit the last check point when its P/L is exactly zero. -/
def computeBreakevens (pl : ℝ → ℝ) (check_points : List ℝ) : List ℝ :=
  (check_points.zip check_points.tail).flatMap (fun pr =>
    let pl1 := pl pr.1
    let pl2 := pl pr.2
    (if pl1 = 0 then [pr.1] else []) ++
      (if pl1 * pl2 < 0 then [interpRoot pr.1 pr.2 pl1 pl2] else [])) ++
  (match check_points.getLast? with
   | some last => if pl last = 0 then [last] else []
   | none => [])

/-- Real-number model of Python's banker's rounding (`round` to the nearest
integer, ties to even). -/
def pyRoundInt (x : ℝ) : ℤ :=
  if x - ⌊x⌋ < 1 / 2 then ⌊x⌋
  else if 1 / 2 < x - ⌊x⌋ then ⌊x⌋ + 1
  else if Even ⌊x⌋ then ⌊x⌋ else ⌊x⌋ + 1

/-- Real-number model of Python's `round(x, ndigits)`. -/
def pyRound (x : ℝ) (ndigits : ℕ) : ℝ :=
  (pyRoundInt (x * 10 ^ ndigits) : ℝ) / 10 ^ ndigits

/-- Minimum of the strike list, embedding `min(strikes)`; the Python `min`
requires a non-empty list, which `calculate_pl` guarantees by rejecting empty
position lists, so the seed for the empty case is arbitrary. -/
def minStrikeOf (positions : List Position) : ℝ :=
  (positions.map Position.strike).foldr min ((positions.map Position.strike).headD 0)

/-- Maximum of the strike list, embedding `max(strikes)`. -/
def maxStrikeOf (positions : List Position) : ℝ :=
  (positions.map Position.strike).foldr max ((positions.map Position.strike).headD 0)

/-- `int(np.floor(lower_bound))` with `lower_bound = min_strike·(1 - range_percent)`. -/
def gridStart (positions : List Position) (range_percent : ℝ) : ℤ :=
  ⌊minStrikeOf positions * (1 - range_percent)⌋

/-- `int(np.ceil(upper_bound))` with `upper_bound = max_strike·(1 + range_percent)`. -/
def gridStop (positions : List Position) (range_percent : ℝ) : ℤ :=
  ⌈maxStrikeOf positions * (1 + range_percent)⌉

/-- Embeds `check_points = sorted(list(set([start, end] + strikes)))`. -/
def checkPointsOf (positions : List Position) (range_percent : ℝ) : List ℝ :=
  sortedDedup (((gridStart positions range_percent : ℤ) : ℝ) ::
    ((gridStop positions range_percent : ℤ) : ℝ) :: positions.map Position.strike)

/-- The exact breakeven points of the intrinsic P/L curve, as computed by
`calculate_pl`. -/
def breakevensOf (positions : List Position) (credit : ℝ) (range_percent : ℝ) : List ℝ :=
  computeBreakevens (get_intrinsic_pl positions credit) (checkPointsOf positions range_percent)

/-- Embeds `all_prices = sorted(list(set(prices.tolist() + breakeven_points)))`. -/
def allPricesOf (positions : List Position) (credit : ℝ) (range_percent : ℝ) : List ℝ :=
  sortedDedup (gridPrices (gridStart positions range_percent)
      (gridStop positions range_percent) ++
    breakevensOf positions credit range_percent)

/-- One sample of the generated P/L curve.  `greeksAt` holds the
`(delta, gamma, theta, vega)` quadruple attached at every second grid point
when theoretical pricing is active. -/
structure DataPoint where
  price : ℝ
  pl : ℝ
  theoretical_pl : ℝ
  greeksAt : Option (ℝ × ℝ × ℝ × ℝ)

/-- One entry of `positions_with_greeks`: the position together with its
quantity-scaled Greeks, theoretical value and intrinsic value at the current
underlying price. -/
structure PositionAnalysis where
  position : Position
  greeks : Greeks
  theoretical_value : ℝ
  intrinsic_value : ℝ

/-- The summary returned by `calculate_probability_metrics`. -/
structure ProbabilityMetrics where
  probability_of_profit : ℝ
  max_profit : ℝ
  max_loss : ℝ
  breakeven_points : List ℝ
  risk_reward : Option ℝ

/-- The full structure returned by `calculate_pl`. -/
structure PLResult where
  data : List DataPoint
  positions_with_greeks : Option (List PositionAnalysis)
  portfolio_greeks : Option Greeks
  probability_metrics : ProbabilityMetrics

/-- Sort a list of reals keeping duplicates, embedding Python's `sorted` on a
plain list (used only for the breakeven list inside the probability metrics). -/
def insertSorted (x : ℝ) : List ℝ → List ℝ
  | [] => [x]
  | y :: ys => if x ≤ y then x :: y :: ys else y :: insertSorted x ys

/-- Insertion sort on reals (duplicates kept). -/
def sortReal (l : List ℝ) : List ℝ := l.foldr insertSorted []

/-- Embeds `calculate_probability_metrics` over the generated data points:
max/min of the (rounded) intrinsic P/L series, breakevens re-detected by sign
change with banker's rounding to 2 digits, percentage of strictly profitable
samples rounded to 1 digit, and the risk/reward ratio when both a positive
maximum and a negative minimum exist. -/
def calculate_probability_metrics (data_points : List DataPoint) : ProbabilityMetrics :=
  match data_points with
  | [] => ⟨0, 0, 0, [], none⟩
  | d0 :: rest =>
    let max_profit := (rest.map DataPoint.pl).foldl max d0.pl
    let max_loss := (rest.map DataPoint.pl).foldl min d0.pl
    let breakevens := ((d0 :: rest).zip rest).flatMap (fun pr =>
      if (0 ≤ pr.1.pl ∧ pr.2.pl < 0) ∨ (pr.1.pl < 0 ∧ 0 ≤ pr.2.pl) then
        [pyRound (pr.1.price + (0 - pr.1.pl) * (pr.2.price - pr.1.price) /
          (pr.2.pl - pr.1.pl)) 2]
      else [])
    let profitable := ((d0 :: rest).filter (fun d => 0 < d.pl)).length
    let probability := ((profitable : ℝ) / ((d0 :: rest).length : ℝ)) * 100
    let ratio : Option ℝ :=
      if max_loss < 0 ∧ 0 < max_profit then some |max_profit / max_loss| else none
    ⟨pyRound probability 1, pyRound max_profit 2, pyRound max_loss 2,
      sortReal breakevens, ratio.map (fun x => pyRound x 2)⟩

/-- One entry of `positions_with_greeks` as built inside `calculate_pl`:
Greeks at the current underlying price scaled by the signed quantity, plus
the theoretical and intrinsic values of the leg. -/
def analyzePosition (md : MarketData) (pos : Position) : PositionAnalysis :=
  let dte := calculate_days_to_expiration pos
  let iv := positionIV pos md
  let q := positionDivYield pos md
  let style := positionStyle pos
  let g := calculate_option_greeks pos.type md.current_price pos.strike dte
    md.risk_free_rate iv q style
  { position := pos
    greeks := ⟨g.delta * pos.qty, g.gamma * pos.qty, g.theta * pos.qty,
      g.vega * pos.qty, g.rho * pos.qty⟩
    theoretical_value := calculate_black_scholes_price pos.type md.current_price
      pos.strike dte md.risk_free_rate iv q style
    intrinsic_value := calculate_intrinsic_value pos.type md.current_price pos.strike }

/-- Embeds the `get_portfolio_greeks_at_price` closure: quantity-weighted sum
of the per-position Greeks at the given underlying price. -/
def get_portfolio_greeks_at_price (positions : List Position) (md : MarketData)
    (stock_price : ℝ) : Greeks :=
  positions.foldl (fun acc pos =>
    let g := calculate_option_greeks pos.type stock_price pos.strike
      (calculate_days_to_expiration pos) md.risk_free_rate (positionIV pos md)
      (positionDivYield pos md) (positionStyle pos)
    ⟨acc.delta + g.delta * pos.qty, acc.gamma + g.gamma * pos.qty,
      acc.theta + g.theta * pos.qty, acc.vega + g.vega * pos.qty,
      acc.rho + g.rho * pos.qty⟩) zeroGreeks

/-- The body of `calculate_pl` after the empty-list guard.  `market_data`
and `use_theoretical_pricing` together decide `can_calculate_bs`; the
evaluation date is absorbed into each position's resolved day count. -/
def calculate_pl_core (positions : List Position) (credit : ℝ)
    (market_data : Option MarketData) (use_theoretical_pricing : Bool)
    (range_percent : ℝ) : PLResult :=
  let positions_with_greeks : Option (List PositionAnalysis) :=
    match market_data, use_theoretical_pricing with
    | some md, true => some (positions.map (analyzePosition md))
    | _, _ => none
  let portfolio_greeks : Option Greeks :=
    match positions_with_greeks with
    | some [] => none
    | some l => some ⟨(l.map (fun p => p.greeks.delta)).sum,
        (l.map (fun p => p.greeks.gamma)).sum, (l.map (fun p => p.greeks.theta)).sum,
        (l.map (fun p => p.greeks.vega)).sum, (l.map (fun p => p.greeks.rho)).sum⟩
    | none => none
  let all_prices := allPricesOf positions credit range_percent
  let data := all_prices.enum.map (fun (ip : ℕ × ℝ) =>
    let intrinsic_pl := get_intrinsic_pl positions credit ip.2
    let theoretical_pl :=
      match market_data, use_theoretical_pricing with
      | some md, true => get_theoretical_pl positions credit md ip.2
      | _, _ => intrinsic_pl
    { price := ip.2
      pl := pyRound intrinsic_pl 2
      theoretical_pl := pyRound theoretical_pl 2
      greeksAt :=
        match market_data, use_theoretical_pricing with
        | some md, true =>
          if ip.1 % 2 = 0 then
            let g := get_portfolio_greeks_at_price positions md ip.2
            some (pyRound g.delta 4, pyRound g.gamma 6, pyRound g.theta 4, pyRound g.vega 4)
          else none
        | _, _ => none })
  { data := data
    positions_with_greeks := positions_with_greeks
    portfolio_greeks := portfolio_greeks
    probability_metrics := calculate_probability_metrics data }

/-- Embeds `calculate_pl`.  An empty position list raises
`ValueError("At least one position is required")`, embedded as `Except.error`;
otherwise the full curve is produced. -/
def calculate_pl (positions : List Position) (credit : ℝ)
    (market_data : Option MarketData) (use_theoretical_pricing : Bool := true)
    (range_percent : ℝ := 0.5) : Except String PLResult :=
  if positions.isEmpty then Except.error "At least one position is required"
  else Except.ok (calculate_pl_core positions credit market_data
    use_theoretical_pricing range_percent)

/-- Spec-side definition, following the claim's words: the root value of the
recombining binomial backward induction with `dt = (days/365)/n`,
`u = e^(σ√dt)`, `d = 1/u`, `p = (e^((r-q)·dt) - d)/(u - d)`, per-step
discount `e^(-r·dt)`, terminal node values equal to the intrinsic payoff at
spot `S·u^(n-i)·d^i`, and every earlier node value equal to
`max(discounted expected value of the successors, intrinsic payoff)` — the
two defining equations of `binomNode`. -/
def specBinomialRoot (t : OptionType) (S K : ℝ) (days : ℤ) (r σ q : ℝ) (n : ℕ) : ℝ :=
  let dt := ((days : ℝ) / 365) / (n : ℝ)
  let u := Real.exp (σ * Real.sqrt dt)
  let d := 1 / u
  let p := (Real.exp ((r - q) * dt) - d) / (u - d)
  let disc := Real.exp (-r * dt)
  binomNode t S K u d p disc n n 0

/-- Spec-side definition, following the claim's words: the Black-Scholes
price `S·e^(-qT)·Φ(d1) - K·e^(-rT)·Φ(d2)` for a call and
`K·e^(-rT)·Φ(-d2) - S·e^(-qT)·Φ(-d1)` for a put, with
`d1 = [ln(S/K) + (r - q + σ²/2)·T]/(σ√T)` and `d2 = d1 - σ√T`. -/
def specBlackScholes (t : OptionType) (S K T r σ q : ℝ) : ℝ :=
  let d1 := (Real.log (S / K) + (r - q + σ ^ 2 / 2) * T) / (σ * Real.sqrt T)
  let d2 := d1 - σ * Real.sqrt T
  match t with
  | .C => S * Real.exp (-q * T) * normCdf d1 - K * Real.exp (-r * T) * normCdf d2
  | .P => K * Real.exp (-r * T) * normCdf (-d2) - S * Real.exp (-q * T) * normCdf (-d1)

/-- Spec-side definition, following the claim's words: the finite-difference
Greeks of the binomial pricer `P`, every perturbed evaluation using the same
step count as the base evaluation: `delta = (P(S+dS) - P(S-dS))/(2·dS)` with
`dS = 0.01·S`, `gamma = (P(S+dS) - 2·P(S) + P(S-dS))/dS²`,
`vega = (P(σ+0.01) - P(σ-0.01))/2`, `rho = (P(r+0.01) - P(r-0.01))/2`, and
`theta = P(days-1) - P(days)` for `days > 1`, `-P(days)` at `days = 1`. -/
def specFiniteDiffGreeks (t : OptionType) (S K : ℝ) (days : ℤ) (r σ q : ℝ) : Greeks :=
  let steps := get_optimal_binomial_steps days
  let P := fun (S' : ℝ) (days' : ℤ) (r' σ' : ℝ) =>
    calculate_american_option_binomial t S' K days' r' σ' q steps
  let dS := 0.01 * S
  { delta := (P (S + dS) days r σ - P (S - dS) days r σ) / (2 * dS)
    gamma := (P (S + dS) days r σ - 2 * P S days r σ + P (S - dS) days r σ) / dS ^ 2
    theta := if 1 < days then P S (days - 1) r σ - P S days r σ else -P S days r σ
    vega := (P S days r (σ + 0.01) - P S days r (σ - 0.01)) / 2
    rho := (P S days (r + 0.01) σ - P S days (r - 0.01) σ) / 2 }

/-- European-exercise value of the same binomial lattice: identical terminal
layer, but every earlier node is the pure discounted expectation (no
early-exercise max).  Used to state the amended form of the
American-vs-European comparison. -/
def euroBinomNode (t : OptionType) (S K u d p disc : ℝ) (steps : ℕ) : ℕ → ℕ → ℝ
  | 0, i => calculate_intrinsic_value t (nodeSpot S u d steps i) K
  | rem + 1, i =>
      disc * (p * euroBinomNode t S K u d p disc steps rem i +
        (1 - p) * euroBinomNode t S K u d p disc steps rem (i + 1))

/-- Concrete single-leg position with the non-integer strike 100.5, used as a
counterexample input: one long call, 30 days out, no overrides. -/
def halfStrikePos : Position :=
  { qty := 1, strike := 201 / 2, type := .C, expiration_days := 30,
    manual_iv := none, dividend_yield := none, style := none }

/-- Concrete single-leg position with the integer strike 100: one long call,
30 days out, no overrides. -/
def unitCallPos : Position :=
  { qty := 1, strike := 100, type := .C, expiration_days := 30,
    manual_iv := none, dividend_yield := none, style := none }

/-! ### Helper lemmas -/

/-- The root of the backward induction dominates the immediate-exercise
payoff: the root node's spot is `S` and, for `steps ≥ 1`, the root value is a
`max` whose second component is the intrinsic payoff at `S`; for `steps = 0`
the root is that payoff itself. -/
theorem binomNode_root_ge_intrinsic (t : OptionType) (S K u d p disc : ℝ) (steps : ℕ) :
    calculate_intrinsic_value t S K ≤ binomNode t S K u d p disc steps steps 0 := by
  cases steps with
  | zero => simp [binomNode, nodeSpot]
  | succ m =>
      have h : binomNode t S K u d p disc (m + 1) (m + 1) 0 =
          max (disc * (p * binomNode t S K u d p disc (m + 1) m 0 +
            (1 - p) * binomNode t S K u d p disc (m + 1) m 1))
          (calculate_intrinsic_value t (nodeSpot S u d ((m + 1) - (m + 1)) 0) K) := rfl
      rw [h, Nat.sub_self]
      have hs : nodeSpot S u d 0 0 = S := by simp [nodeSpot]
      rw [hs]
      exact le_max_right _ _

/-- The Gaussian kernel written with the exponent in the form used by
Mathlib's Gaussian-integral lemmas. -/
theorem gauss_eq :
    (fun x : ℝ => Real.exp (-x ^ 2 / 2)) = fun x => Real.exp (-(1 / 2) * x ^ 2) := by
  funext x; ring_nf

/-- The Gaussian kernel is integrable on the line. -/
theorem integrable_gauss : Integrable (fun x : ℝ => Real.exp (-x ^ 2 / 2)) := by
  rw [gauss_eq]; exact integrable_exp_neg_mul_sq (by norm_num)

/-- The Gaussian integral: `∫ e^(-x²/2) = √(2π)`. -/
theorem gauss_total : (∫ x : ℝ, Real.exp (-x ^ 2 / 2)) = Real.sqrt (2 * Real.pi) := by
  rw [gauss_eq, integral_gaussian]
  rw [show Real.pi / (1 / 2) = 2 * Real.pi by ring]

/-- By symmetry of the Gaussian kernel, the half-line integrals at `0` agree. -/
theorem gauss_reflect :
    (∫ x in Iic (0 : ℝ), Real.exp (-x ^ 2 / 2)) =
      ∫ x in Ioi (0 : ℝ), Real.exp (-x ^ 2 / 2) := by
  have h := integral_comp_neg_Iic (0 : ℝ) (fun x => Real.exp (-x ^ 2 / 2))
  simp only [neg_sq, neg_zero] at h
  exact h

/-- The left half of the Gaussian integral is `√(2π)/2`. -/
theorem gauss_Iic_zero :
    (∫ x in Iic (0 : ℝ), Real.exp (-x ^ 2 / 2)) = Real.sqrt (2 * Real.pi) / 2 := by
  have hsplit : (∫ x in Iic (0 : ℝ) ∪ Ioi (0 : ℝ), Real.exp (-x ^ 2 / 2)) =
      (∫ x in Iic (0 : ℝ), Real.exp (-x ^ 2 / 2)) +
        ∫ x in Ioi (0 : ℝ), Real.exp (-x ^ 2 / 2) :=
    setIntegral_union (Iic_disjoint_Ioi le_rfl) measurableSet_Ioi
      integrable_gauss.integrableOn integrable_gauss.integrableOn
  rw [Iic_union_Ioi, setIntegral_univ, gauss_total, ← gauss_reflect] at hsplit
  linarith

/-- The standard normal CDF at `0` is `1/2`. -/
theorem normCdf_zero : normCdf 0 = 1 / 2 := by
  have h2π : (0 : ℝ) < Real.sqrt (2 * Real.pi) := Real.sqrt_pos.mpr (by positivity)
  unfold normCdf normPdf
  rw [integral_mul_left, gauss_Iic_zero]
  field_simp

/-- `-e^(-y²/2)` is an antiderivative of `y·e^(-y²/2)`. -/
theorem deriv_negExpSq (x : ℝ) :
    HasDerivAt (fun y : ℝ => -Real.exp (-y ^ 2 / 2)) (x * Real.exp (-x ^ 2 / 2)) x := by
  have h1 : HasDerivAt (fun y : ℝ => -y ^ 2 / 2) (-(2 * x ^ 1) / 2) x :=
    ((hasDerivAt_pow 2 x).neg).div_const 2
  have h2 := (h1.exp).neg
  convert h2 using 1
  ring

/-- The antiderivative above vanishes at infinity. -/
theorem tendsto_negExpSq :
    Tendsto (fun y : ℝ => -Real.exp (-y ^ 2 / 2)) atTop (nhds 0) := by
  have h1 : Tendsto (fun y : ℝ => y ^ 2 / 2) atTop atTop :=
    (tendsto_pow_atTop (by norm_num)).atTop_div_const (by norm_num)
  have h2 : Tendsto (fun y : ℝ => -(y ^ 2 / 2)) atTop atBot := tendsto_neg_atBot_iff.mpr h1
  have h3 : Tendsto (fun y : ℝ => Real.exp (-y ^ 2 / 2)) atTop (nhds 0) :=
    (Real.tendsto_exp_atBot.comp h2).congr (fun y => by simp [Function.comp, neg_div])
  simpa using h3.neg

/-- `x·e^(-x²/2)` is integrable on `(20, ∞)`. -/
theorem integrableOn_x_gauss :
    IntegrableOn (fun x : ℝ => x * Real.exp (-x ^ 2 / 2)) (Ioi (20 : ℝ)) := by
  apply integrableOn_Ioi_deriv_of_nonneg _ (fun x _ => deriv_negExpSq x) _ tendsto_negExpSq
  · exact (((Real.continuous_exp.comp (by continuity)).neg).continuousWithinAt)
  · intro x hx
    have hx0 : (0 : ℝ) < x := lt_trans (by norm_num) hx
    positivity

/-- The exact tail integral `∫_(20,∞) x·e^(-x²/2) = e^(-200)`. -/
theorem integral_x_gauss_Ioi20 :
    (∫ x in Ioi (20 : ℝ), x * Real.exp (-x ^ 2 / 2)) = Real.exp (-200) := by
  have h := integral_Ioi_of_hasDerivAt_of_tendsto
    (((Real.continuous_exp.comp (by continuity)).neg).continuousWithinAt)
    (fun x _ => deriv_negExpSq x) integrableOn_x_gauss tendsto_negExpSq
  rw [h]
  norm_num

/-- Gaussian tail bound at `-20`: the left tail mass of the kernel is at most
`e^(-200)/20`. -/
theorem gauss_tail_le :
    (∫ x in Iic (-20 : ℝ), Real.exp (-x ^ 2 / 2)) ≤ Real.exp (-200) / 20 := by
  have hrefl : (∫ x in Iic (-20 : ℝ), Real.exp (-x ^ 2 / 2)) =
      ∫ x in Ioi (20 : ℝ), Real.exp (-x ^ 2 / 2) := by
    have h := integral_comp_neg_Iic (-20 : ℝ) (fun x => Real.exp (-x ^ 2 / 2))
    simp only [neg_sq, neg_neg] at h
    exact h
  have hcmp : (∫ x in Ioi (20 : ℝ), Real.exp (-x ^ 2 / 2)) ≤
      ∫ x in Ioi (20 : ℝ), (1 / 20) * (x * Real.exp (-x ^ 2 / 2)) := by
    apply setIntegral_mono_on integrable_gauss.integrableOn
      (integrableOn_x_gauss.const_mul (1 / 20)) measurableSet_Ioi
    intro x hx
    have hx20 : (20 : ℝ) < x := hx
    nlinarith [Real.exp_pos (-x ^ 2 / 2)]
  have hval : (∫ x in Ioi (20 : ℝ), (1 / 20) * (x * Real.exp (-x ^ 2 / 2))) =
      Real.exp (-200) / 20 := by
    rw [integral_mul_left, integral_x_gauss_Ioi20]
    ring
  rw [hrefl]
  linarith

/-- The standard normal CDF at `-20` is at most `(√(2π))⁻¹·e^(-200)/20`. -/
theorem normCdf_neg20_le :
    normCdf (-20) ≤ (Real.sqrt (2 * Real.pi))⁻¹ * (Real.exp (-200) / 20) := by
  unfold normCdf normPdf
  rw [integral_mul_left]
  have h2π : (0 : ℝ) ≤ (Real.sqrt (2 * Real.pi))⁻¹ := by positivity
  exact mul_le_mul_of_nonneg_left gauss_tail_le h2π

/-- If every node spot of a call lattice stays at or below the strike, every
node value is zero: terminal payoffs vanish and the backward induction only
propagates zeros. -/
theorem binomNode_call_zero (S K u d p disc : ℝ) (steps : ℕ)
    (hu : 1 ≤ u) (hd0 : 0 ≤ d) (hd1 : d ≤ 1) (hS : 0 ≤ S)
    (hK : S * u ^ steps ≤ K) :
    ∀ rem i, binomNode .C S K u d p disc steps rem i = 0 := by
  have hspot : ∀ step i, step ≤ steps → nodeSpot S u d step i ≤ K := by
    intro step i hstep
    have h1 : u ^ (step - i) ≤ u ^ steps :=
      pow_le_pow_right₀ hu (le_trans (Nat.sub_le step i) hstep)
    have h2 : d ^ i ≤ 1 := pow_le_one₀ hd0 hd1
    have h3 : (0 : ℝ) ≤ d ^ i := pow_nonneg hd0 i
    have h4 : (0 : ℝ) ≤ u ^ (step - i) := pow_nonneg (le_trans zero_le_one hu) _
    have h5 : S * u ^ (step - i) * d ^ i ≤ S * u ^ steps * 1 := by
      apply mul_le_mul (mul_le_mul_of_nonneg_left h1 hS) h2 h3
      positivity
    calc nodeSpot S u d step i = S * u ^ (step - i) * d ^ i := rfl
      _ ≤ S * u ^ steps * 1 := h5
      _ = S * u ^ steps := by ring
      _ ≤ K := hK
  intro rem
  induction rem with
  | zero =>
      intro i
      have h := hspot steps i le_rfl
      simp only [binomNode, calculate_intrinsic_value]
      exact max_eq_left (by linarith)
  | succ n ih =>
      intro i
      have h := hspot (steps - (n + 1)) i (Nat.sub_le _ _)
      simp only [binomNode, calculate_intrinsic_value, ih]
      have hin : max 0 (nodeSpot S u d (steps - (n + 1)) i - K) = 0 :=
        max_eq_left (by linarith)
      rw [hin]
      simp

/-- The European lattice value never exceeds the American lattice value node
by node, provided the risk-neutral weight lies in `[0,1]` and the discount is
nonnegative: the American node takes a `max` over the same hold value. -/
theorem euroBinomNode_le_binomNode (t : OptionType) (S K u d p disc : ℝ) (steps : ℕ)
    (hp0 : 0 ≤ p) (hp1 : p ≤ 1) (hdisc : 0 ≤ disc) :
    ∀ rem i, euroBinomNode t S K u d p disc steps rem i ≤
      binomNode t S K u d p disc steps rem i := by
  intro rem
  induction rem with
  | zero => intro i; simp [euroBinomNode, binomNode]
  | succ n ih =>
      intro i
      simp only [euroBinomNode, binomNode]
      refine le_trans ?_ (le_max_left _ _)
      have h1p : (0 : ℝ) ≤ 1 - p := by linarith
      gcongr
      · exact ih i
      · exact ih (i + 1)

/-- Membership in an insertion step of the sorted-set embedding. -/
theorem mem_insertSortedDedup (x a : ℝ) (l : List ℝ) :
    a ∈ insertSortedDedup x l ↔ a = x ∨ a ∈ l := by
  induction l with
  | nil => simp [insertSortedDedup]
  | cons y ys ih =>
      simp only [insertSortedDedup]
      split_ifs with h1 h2
      · simp only [List.mem_cons]
      · subst h2
        simp only [List.mem_cons]
        tauto
      · simp only [List.mem_cons, ih]
        tauto

/-- Insertion preserves strict sortedness. -/
theorem sorted_insertSortedDedup (x : ℝ) (l : List ℝ)
    (h : List.Sorted (· < ·) l) : List.Sorted (· < ·) (insertSortedDedup x l) := by
  induction l with
  | nil => simp [insertSortedDedup]
  | cons y ys ih =>
      rw [List.sorted_cons] at h
      obtain ⟨hy, hys⟩ := h
      simp only [insertSortedDedup]
      split_ifs with h1 h2
      · rw [List.sorted_cons]
        refine ⟨?_, ?_⟩
        · intro b hb
          rcases List.mem_cons.mp hb with rfl | hb
          · exact h1
          · exact lt_trans h1 (hy b hb)
        · rw [List.sorted_cons]
          exact ⟨hy, hys⟩
      · rw [List.sorted_cons]
        exact ⟨hy, hys⟩
      · rw [List.sorted_cons]
        refine ⟨?_, ih hys⟩
        intro b hb
        rcases (mem_insertSortedDedup x b ys).mp hb with rfl | hb
        · rcases lt_trichotomy b y with hlt | heq | hgt
          · exact absurd hlt h1
          · exact absurd heq h2
          · exact hgt
        · exact hy b hb

/-- The sorted-set embedding computes on `cons`. -/
theorem sortedDedup_cons (y : ℝ) (ys : List ℝ) :
    sortedDedup (y :: ys) = insertSortedDedup y (sortedDedup ys) := rfl

/-- `sortedDedup` preserves membership. -/
theorem mem_sortedDedup (a : ℝ) (l : List ℝ) : a ∈ sortedDedup l ↔ a ∈ l := by
  induction l with
  | nil => simp [sortedDedup]
  | cons y ys ih =>
      rw [sortedDedup_cons, mem_insertSortedDedup, ih, List.mem_cons]

/-- `sortedDedup` always returns a strictly sorted (hence duplicate-free) list. -/
theorem sorted_sortedDedup (l : List ℝ) : List.Sorted (· < ·) (sortedDedup l) := by
  induction l with
  | nil => simp [sortedDedup]
  | cons y ys ih => exact sorted_insertSortedDedup y _ ih

/-- Every integer between the grid bounds appears on the integer price grid. -/
theorem gridPrices_mem (s e k : ℤ) (h1 : s ≤ k) (h2 : k ≤ e) :
    ((k : ℤ) : ℝ) ∈ gridPrices s e := by
  unfold gridPrices
  refine List.mem_map.mpr ⟨(k - s).toNat, ?_, ?_⟩
  · rw [List.mem_range]
    rw [Int.toNat_lt_toNat (by omega : (0 : ℤ) < e + 1 - s)]
    omega
  · show ((s + (((k - s).toNat : ℕ) : ℤ) : ℤ) : ℝ) = ((k : ℤ) : ℝ)
    rw [show (s + (((k - s).toNat : ℕ) : ℤ)) = k by omega]

/-- Every member of the integer price grid is integer-valued. -/
theorem gridPrices_int (s e : ℤ) (x : ℝ) (h : x ∈ gridPrices s e) :
    ∃ k : ℤ, x = (k : ℝ) := by
  unfold gridPrices at h
  rw [List.mem_map] at h
  obtain ⟨a, _, ha⟩ := h
  exact ⟨s + a, ha.symm⟩

/-- The price coordinates of the generated data points are exactly the merged
sorted price sequence. -/
theorem calculate_pl_core_prices (positions : List Position) (credit : ℝ)
    (market_data : Option MarketData) (use_theoretical_pricing : Bool)
    (range_percent : ℝ) :
    ((calculate_pl_core positions credit market_data use_theoretical_pricing
      range_percent).data.map DataPoint.price) =
      allPricesOf positions credit range_percent := by
  simp only [calculate_pl_core, List.map_map]
  show ((allPricesOf positions credit range_percent).enum.map Prod.snd) =
    allPricesOf positions credit range_percent
  exact List.enum_map_snd _

/-- A non-empty argument list makes `calculate_pl` return the `Except.ok` of
its core computation. -/
theorem calculate_pl_ok (positions : List Position) (credit : ℝ)
    (market_data : Option MarketData) (use_theoretical_pricing : Bool)
    (range_percent : ℝ) (res : PLResult)
    (h : calculate_pl positions credit market_data use_theoretical_pricing
      range_percent = Except.ok res) :
    res = calculate_pl_core positions credit market_data use_theoretical_pricing
      range_percent := by
  unfold calculate_pl at h
  by_cases hemp : positions.isEmpty
  · rw [if_pos hemp] at h
    exact absurd h (by simp)
  · rw [if_neg hemp] at h
    exact (Except.ok.inj h).symm

/-- `foldr min` is a lower bound of the list. -/
theorem foldr_min_le (l : List ℝ) (seed a : ℝ) (h : a ∈ l) : l.foldr min seed ≤ a := by
  induction l with
  | nil => cases h
  | cons y ys ih =>
      rcases List.mem_cons.mp h with rfl | h
      · exact min_le_left _ _
      · exact le_trans (min_le_right _ _) (ih h)

/-- `foldr max` is an upper bound of the list. -/
theorem le_foldr_max (l : List ℝ) (seed a : ℝ) (h : a ∈ l) : a ≤ l.foldr max seed := by
  induction l with
  | nil => cases h
  | cons y ys ih =>
      rcases List.mem_cons.mp h with rfl | h
      · exact le_max_left _ _
      · exact le_trans (ih h) (le_max_right _ _)

/-- `foldr min` stays nonnegative when the seed and all elements are. -/
theorem foldr_min_nonneg (l : List ℝ) (seed : ℝ) (hseed : 0 ≤ seed)
    (h : ∀ a ∈ l, 0 ≤ a) : 0 ≤ l.foldr min seed := by
  induction l with
  | nil => exact hseed
  | cons y ys ih =>
      refine le_min (h y (List.mem_cons_self y ys)) (ih ?_)
      intro a ha
      exact h a (List.mem_cons_of_mem y ha)

/-- `foldr max` stays nonnegative when the seed is. -/
theorem foldr_max_nonneg (l : List ℝ) (seed : ℝ) (hseed : 0 ≤ seed) :
    0 ≤ l.foldr max seed := by
  induction l with
  | nil => exact hseed
  | cons y ys ih => exact le_trans ih (le_max_right _ _)

/-! ### Claim theorems -/

/-- C9: for every input — including the degenerate-input branches — the value
returned by `calculate_american_option_binomial` is at least the
immediate-exercise payoff `calculate_intrinsic_value`, because the fallback
branches return the intrinsic value itself and the root node of the lattice
takes the maximum of hold value and exercise value at the current spot. -/
theorem american_binomial_ge_intrinsic (t : OptionType) (S K : ℝ) (days : ℤ)
    (r σ q : ℝ) (steps : ℕ) :
    calculate_intrinsic_value t S K ≤
      calculate_american_option_binomial t S K days r σ q steps := by
  unfold calculate_american_option_binomial
  split_ifs
  · exact le_refl _
  · exact le_refl _
  · exact binomNode_root_ge_intrinsic t S K _ _ _ _ steps

/-- C6: for every European-style input with `days_to_expiration ≤ 0`, or
`volatility ≤ 0`, or `d1`/`d2` undefined, `calculate_black_scholes_price`
returns the intrinsic value (`max(0, S-K)` for calls, `max(0, K-S)` for
puts); the embedding is a total function, so no fault ever reaches the
caller.  In particular at `days_to_expiration = 0` the result equals
`calculate_intrinsic_value` exactly. -/
theorem black_scholes_degenerate_intrinsic (t : OptionType) (S K : ℝ) (days : ℤ)
    (r σ q : ℝ)
    (h : days ≤ 0 ∨ σ ≤ 0 ∨
      calculate_d1_d2 S K ((days : ℝ) / 365) r σ q = none) :
    calculate_black_scholes_price t S K days r σ q .European =
      calculate_intrinsic_value t S K := by
  by_cases hd : days ≤ 0
  · simp [calculate_black_scholes_price, hd, calculate_intrinsic_value]
  · have h' : σ ≤ 0 ∨ calculate_d1_d2 S K ((days : ℝ) / 365) r σ q = none :=
      h.resolve_left hd
    by_cases hσ : σ ≤ 0
    · simp [calculate_black_scholes_price, hd, hσ]
    · have hnone : calculate_d1_d2 S K ((days : ℝ) / 365) r σ q = none :=
        h'.resolve_left hσ
      by_cases hT : (days : ℝ) / 365 ≤ 0 ∨ σ ≤ 0
      · simp [calculate_black_scholes_price, hd, hT]
      · simp [calculate_black_scholes_price, hd, hT, hnone]

/-- Witness for the degenerate fallback: at `days_to_expiration = 0` the
European price is exactly the intrinsic value. -/
theorem black_scholes_degenerate_intrinsic_witness :
    calculate_black_scholes_price .C 100 95 0 (1 / 20) (1 / 5) 0 .European =
      calculate_intrinsic_value .C 100 95 :=
  black_scholes_degenerate_intrinsic .C 100 95 0 (1 / 20) (1 / 5) 0
    (Or.inl (by norm_num))

/-- C8: `calculate_pl` called with an empty position list reports the
validation error (the embedded `ValueError`) for every combination of the
other arguments, producing no curve. -/
theorem calculate_pl_empty_rejected (credit : ℝ) (market_data : Option MarketData)
    (use_theoretical_pricing : Bool) (range_percent : ℝ) :
    calculate_pl [] credit market_data use_theoretical_pricing range_percent =
      Except.error "At least one position is required" := rfl

/-- C1: for every option kind, positive spot, strike, day count, volatility
and step count `n ≥ 1`, `calculate_american_option_binomial` returns the
root value of the recombining binomial backward induction with
`dt = (days/365)/n`, `u = e^(σ√dt)`, `d = 1/u`,
`p = (e^((r-q)·dt) - d)/(u - d)`, per-step discount `e^(-r·dt)`, terminal
values equal to the intrinsic payoff at `S·u^(n-i)·d^i`, and earlier node
values equal to `max(hold, exercise)` (the recursion `binomNode`, packaged
as `specBinomialRoot`). -/
theorem american_binomial_backward_induction (t : OptionType) (S K : ℝ) (days : ℤ)
    (r σ q : ℝ) (n : ℕ) (hS : 0 < S) (hK : 0 < K) (hdays : 0 < days) (hσ : 0 < σ)
    (_hn : 1 ≤ n) :
    calculate_american_option_binomial t S K days r σ q n =
      specBinomialRoot t S K days r σ q n := by
  simp only [calculate_american_option_binomial, specBinomialRoot]
  rw [if_neg (by omega), if_neg (by push_neg; exact ⟨hσ, hS, hK⟩)]

/-- Witness for C1 at a concrete input. -/
theorem american_binomial_backward_induction_witness :
    calculate_american_option_binomial .C 100 100 30 (1 / 20) (1 / 5) 0 3 =
      specBinomialRoot .C 100 100 30 (1 / 20) (1 / 5) 0 3 :=
  american_binomial_backward_induction .C 100 100 30 (1 / 20) (1 / 5) 0 3
    (by norm_num) (by norm_num) (by norm_num) (by norm_num) (by norm_num)

/-- C2: for every European-style input with `days_to_expiration > 0` and
`volatility > 0` (so `d1`/`d2` are defined), `calculate_black_scholes_price`
returns the closed-form Black-Scholes-Merton price `specBlackScholes` with
`T = days/365`. -/
theorem black_scholes_closed_form (t : OptionType) (S K : ℝ) (days : ℤ)
    (r σ q : ℝ) (hdays : 0 < days) (hσ : 0 < σ) :
    calculate_black_scholes_price t S K days r σ q .European =
      specBlackScholes t S K ((days : ℝ) / 365) r σ q := by
  have hdR : (0 : ℝ) < (days : ℝ) := by exact_mod_cast hdays
  have hT : 0 < (days : ℝ) / 365 := by positivity
  simp only [calculate_black_scholes_price, specBlackScholes, calculate_d1_d2]
  rw [if_neg (by simp), if_neg (by omega),
    if_neg (by push_neg; exact ⟨hT, hσ⟩)]
  have h05 : ∀ x : ℝ, r - q + 0.5 * x = r - q + x / 2 := by intro x; ring
  rw [h05 (σ ^ 2), if_neg (by push_neg; exact ⟨hT, hσ⟩)]

/-- Witness for C2 at a concrete input. -/
theorem black_scholes_closed_form_witness :
    calculate_black_scholes_price .C 100 95 30 (1 / 20) (1 / 5) 0 .European =
      specBlackScholes .C 100 95 ((30 : ℝ) / 365) (1 / 20) (1 / 5) 0 := by
  have h := black_scholes_closed_form .C 100 95 30 (1 / 20) (1 / 5) 0
    (by norm_num) (by norm_num)
  simpa using h

/-- C3: for every input with positive spot, strike, volatility and day count,
`calculate_american_greeks_finite_diff` returns exactly the finite-difference
5-tuple `specFiniteDiffGreeks` of the binomial pricer, every perturbed
evaluation using the same step count as the base evaluation. -/
theorem american_fd_greeks (t : OptionType) (S K : ℝ) (days : ℤ) (r σ q : ℝ)
    (hS : 0 < S) (hK : 0 < K) (hdays : 0 < days) (hσ : 0 < σ) :
    calculate_american_greeks_finite_diff t S K days r σ q =
      specFiniteDiffGreeks t S K days r σ q := by
  simp only [calculate_american_greeks_finite_diff, specFiniteDiffGreeks]
  rw [if_neg (by omega), if_neg (by push_neg; exact ⟨hS, hK, hσ⟩)]
  rw [mul_comm S (0.01 : ℝ)]

/-- At the counterexample input (spot 1, strike `e^200`, 365 days, rate 0,
volatility 20, 100 steps) the call lattice never reaches the strike, so the
American binomial price is exactly zero. -/
theorem american_cex_zero :
    calculate_american_option_binomial .C 1 (Real.exp 200) 365 0 20 0 100 = 0 := by
  simp only [calculate_american_option_binomial]
  rw [if_neg (by norm_num),
    if_neg (by push_neg; exact ⟨by norm_num, by norm_num, Real.exp_pos 200⟩)]
  have harg : ((365 : ℤ) : ℝ) / 365 / ((100 : ℕ) : ℝ) = 1 / 100 := by norm_num
  rw [harg]
  have hsqrt : Real.sqrt (1 / 100 : ℝ) = 1 / 10 := by
    rw [show (1 / 100 : ℝ) = (1 / 10) ^ 2 by norm_num, Real.sqrt_sq (by norm_num)]
  rw [hsqrt, show (20 : ℝ) * (1 / 10) = 2 by norm_num]
  exact binomNode_call_zero 1 (Real.exp 200) (Real.exp 2) (1 / Real.exp 2) _ _ 100
    (Real.one_le_exp (by norm_num)) (by positivity)
    (by rw [div_le_one (Real.exp_pos 2)]; exact Real.one_le_exp (by norm_num))
    (by norm_num)
    (by rw [one_mul, ← Real.exp_nat_mul]; norm_num) 100 0

/-- At the counterexample input the European closed form evaluates to
`Φ(0) - e^200·Φ(-20)`. -/
theorem european_cex_value :
    calculate_black_scholes_price .C 1 (Real.exp 200) 365 0 20 0 .European =
      normCdf 0 - Real.exp 200 * normCdf (-20) := by
  simp only [calculate_black_scholes_price, calculate_d1_d2]
  rw [if_neg (by simp), if_neg (by norm_num)]
  have harg : ((365 : ℤ) : ℝ) / 365 = 1 := by norm_num
  rw [harg]
  have hlog : Real.log (1 / Real.exp 200) = -200 := by
    rw [one_div, Real.log_inv, Real.log_exp]
  rw [if_neg (by norm_num), if_neg (by norm_num)]
  norm_num [hlog, Real.sqrt_one, Real.exp_zero]

/-- C4 counterexample: at spot 1, strike `e^200`, 365 days, rate 0,
volatility 20 and zero dividend yield — a valid input in the claim's sense —
the American price returned by `calculate_american_option_binomial` (its
default 100 steps) is strictly below the European price returned by
`calculate_black_scholes_price`: lattice discretization truncates the price
distribution at `S·u^100 = e^200 = K`, giving an American value of 0, while
the closed form is strictly positive. -/
theorem american_lt_european_cex :
    calculate_american_option_binomial .C 1 (Real.exp 200) 365 0 20 0 100 <
      calculate_black_scholes_price .C 1 (Real.exp 200) 365 0 20 0 .European := by
  rw [american_cex_zero, european_cex_value, normCdf_zero]
  have h1 : Real.exp 200 * normCdf (-20) ≤
      Real.exp 200 * ((Real.sqrt (2 * Real.pi))⁻¹ * (Real.exp (-200) / 20)) :=
    mul_le_mul_of_nonneg_left normCdf_neg20_le (le_of_lt (Real.exp_pos _))
  have h2 : Real.exp 200 * ((Real.sqrt (2 * Real.pi))⁻¹ * (Real.exp (-200) / 20)) =
      (Real.sqrt (2 * Real.pi))⁻¹ / 20 := by
    rw [show Real.exp 200 * ((Real.sqrt (2 * Real.pi))⁻¹ * (Real.exp (-200) / 20)) =
      Real.exp 200 * Real.exp (-200) * ((Real.sqrt (2 * Real.pi))⁻¹ / 20) by ring,
      ← Real.exp_add]
    norm_num
  have h3 : (1 : ℝ) ≤ Real.sqrt (2 * Real.pi) := by
    rw [show (1 : ℝ) = Real.sqrt 1 from (Real.sqrt_one).symm]
    exact Real.sqrt_le_sqrt (by linarith [Real.pi_gt_three])
  have h4 : (Real.sqrt (2 * Real.pi))⁻¹ ≤ 1 := inv_le_one_of_one_le₀ h3
  linarith

/-- C4 amended: for every valid input whose risk-neutral up-probability lies
in `[0,1]`, the American binomial price dominates the European value of the
same lattice (same `u`, `d`, `p`, per-step discount and step count) — the
early-exercise premium of the discretized model is non-negative.  The
comparison against the closed-form Black-Scholes price claimed originally
fails by `american_lt_european_cex`. -/
theorem american_ge_european_lattice (t : OptionType) (S K : ℝ) (days : ℤ)
    (r σ q : ℝ) (steps : ℕ) (u d p disc : ℝ)
    (hdays : 0 < days) (hσ : 0 < σ) (hS : 0 < S) (hK : 0 < K)
    (hu : u = Real.exp (σ * Real.sqrt (((days : ℝ) / 365) / (steps : ℝ))))
    (hd : d = 1 / u)
    (hp : p = (Real.exp ((r - q) * (((days : ℝ) / 365) / (steps : ℝ))) - d) / (u - d))
    (hdisc : disc = Real.exp (-r * (((days : ℝ) / 365) / (steps : ℝ))))
    (hp0 : 0 ≤ p) (hp1 : p ≤ 1) :
    euroBinomNode t S K u d p disc steps steps 0 ≤
      calculate_american_option_binomial t S K days r σ q steps := by
  simp only [calculate_american_option_binomial]
  rw [if_neg (by omega), if_neg (by push_neg; exact ⟨hσ, hS, hK⟩)]
  subst hu
  subst hd
  subst hp
  subst hdisc
  exact euroBinomNode_le_binomNode t S K _ _ _ _ steps hp0 hp1
    (le_of_lt (Real.exp_pos _)) steps 0

/-- Witness for the amended C4 statement at a concrete input (one step,
365 days, unit volatility, zero rate and dividend yield, `p ∈ [0,1]`). -/
theorem american_ge_european_lattice_witness :
    euroBinomNode .C 1 1
      (Real.exp ((1 : ℝ) * Real.sqrt ((((365 : ℤ) : ℝ) / 365) / ((1 : ℕ) : ℝ))))
      (1 / Real.exp ((1 : ℝ) * Real.sqrt ((((365 : ℤ) : ℝ) / 365) / ((1 : ℕ) : ℝ))))
      ((Real.exp (((0 : ℝ) - 0) * ((((365 : ℤ) : ℝ) / 365) / ((1 : ℕ) : ℝ))) -
          1 / Real.exp ((1 : ℝ) * Real.sqrt ((((365 : ℤ) : ℝ) / 365) / ((1 : ℕ) : ℝ)))) /
        (Real.exp ((1 : ℝ) * Real.sqrt ((((365 : ℤ) : ℝ) / 365) / ((1 : ℕ) : ℝ))) -
          1 / Real.exp ((1 : ℝ) * Real.sqrt ((((365 : ℤ) : ℝ) / 365) / ((1 : ℕ) : ℝ)))))
      (Real.exp (-(0 : ℝ) * ((((365 : ℤ) : ℝ) / 365) / ((1 : ℕ) : ℝ)))) 1 1 0 ≤
      calculate_american_option_binomial .C 1 1 365 0 1 0 1 := by
  have he1 : (1 : ℝ) < Real.exp 1 := by
    have := Real.exp_one_gt_d9
    linarith
  have harg : (((365 : ℤ) : ℝ) / 365) / ((1 : ℕ) : ℝ) = 1 := by norm_num
  have hp0 : 0 ≤ (Real.exp (((0 : ℝ) - 0) * ((((365 : ℤ) : ℝ) / 365) / ((1 : ℕ) : ℝ))) -
      1 / Real.exp ((1 : ℝ) * Real.sqrt ((((365 : ℤ) : ℝ) / 365) / ((1 : ℕ) : ℝ)))) /
      (Real.exp ((1 : ℝ) * Real.sqrt ((((365 : ℤ) : ℝ) / 365) / ((1 : ℕ) : ℝ))) -
        1 / Real.exp ((1 : ℝ) * Real.sqrt ((((365 : ℤ) : ℝ) / 365) / ((1 : ℕ) : ℝ)))) := by
    rw [harg, Real.sqrt_one, mul_one, one_div,
      show ((0 : ℝ) - 0) = 0 by ring, show ((1 : ℝ) * 1) = 1 by ring, Real.exp_zero]
    have hinv : (Real.exp 1)⁻¹ ≤ 1 := inv_le_one_of_one_le₀ (le_of_lt he1)
    apply div_nonneg
    · linarith
    · linarith
  have hp1 : (Real.exp (((0 : ℝ) - 0) * ((((365 : ℤ) : ℝ) / 365) / ((1 : ℕ) : ℝ))) -
      1 / Real.exp ((1 : ℝ) * Real.sqrt ((((365 : ℤ) : ℝ) / 365) / ((1 : ℕ) : ℝ)))) /
      (Real.exp ((1 : ℝ) * Real.sqrt ((((365 : ℤ) : ℝ) / 365) / ((1 : ℕ) : ℝ))) -
        1 / Real.exp ((1 : ℝ) * Real.sqrt ((((365 : ℤ) : ℝ) / 365) / ((1 : ℕ) : ℝ)))) ≤ 1 := by
    rw [harg, Real.sqrt_one, mul_one, one_div,
      show ((0 : ℝ) - 0) = 0 by ring, show ((1 : ℝ) * 1) = 1 by ring, Real.exp_zero]
    have hinv : (Real.exp 1)⁻¹ ≤ 1 := inv_le_one_of_one_le₀ (le_of_lt he1)
    have hden : 0 < Real.exp 1 - (Real.exp 1)⁻¹ := by linarith
    rw [div_le_one hden]
    linarith
  exact american_ge_european_lattice .C 1 1 365 0 1 0 1 _ _ _ _ (by norm_num)
    (by norm_num) (by norm_num) (by norm_num) rfl rfl rfl rfl hp0 hp1

/-- C7: the data points of every curve returned by `calculate_pl` are
strictly sorted by price — ascending with no duplicates — and every exact
breakeven computed by the piecewise-linear interpolation over the sorted
union of grid bounds and strikes is present in the price sequence. -/
theorem pl_curve_sorted_dedup_breakevens (positions : List Position) (credit : ℝ)
    (market_data : Option MarketData) (use_theoretical_pricing : Bool)
    (range_percent : ℝ) (res : PLResult)
    (h : calculate_pl positions credit market_data use_theoretical_pricing
      range_percent = Except.ok res) :
    List.Sorted (· < ·) (res.data.map DataPoint.price) ∧
      (res.data.map DataPoint.price).Nodup ∧
      ∀ b ∈ breakevensOf positions credit range_percent,
        b ∈ res.data.map DataPoint.price := by
  rw [calculate_pl_ok positions credit market_data use_theoretical_pricing
    range_percent res h, calculate_pl_core_prices]
  refine ⟨sorted_sortedDedup _, (sorted_sortedDedup _).nodup, ?_⟩
  intro b hb
  unfold allPricesOf
  rw [mem_sortedDedup]
  exact List.mem_append_right _ hb

/-- Witness for C7 at a concrete single-position input. -/
theorem pl_curve_sorted_dedup_breakevens_witness :
    List.Sorted (· < ·)
      ((calculate_pl_core [unitCallPos] 0 none true (1 / 2)).data.map DataPoint.price) ∧
      ((calculate_pl_core [unitCallPos] 0 none true (1 / 2)).data.map
        DataPoint.price).Nodup ∧
      ∀ b ∈ breakevensOf [unitCallPos] 0 (1 / 2),
        b ∈ (calculate_pl_core [unitCallPos] 0 none true (1 / 2)).data.map
          DataPoint.price :=
  pl_curve_sorted_dedup_breakevens [unitCallPos] 0 none true (1 / 2) _ rfl

/-- The head of the strike list is nonnegative when all strikes are. -/
theorem headD_strike_nonneg (positions : List Position)
    (hstrikes : ∀ p ∈ positions, 0 ≤ p.strike) :
    0 ≤ (positions.map Position.strike).headD 0 := by
  cases positions with
  | nil => simp
  | cons p ps => simpa using hstrikes p (List.mem_cons_self p ps)

/-- C5 amended: for every curve returned by `calculate_pl` (with
`0 ≤ range_percent ≤ 1` and nonnegative strikes), every position strike that
is an integer appears in the price sequence as a grid point; a non-integer
strike need not appear (`strike_missing_from_grid_cex`). -/
theorem integral_strike_in_grid (positions : List Position) (credit : ℝ)
    (market_data : Option MarketData) (use_theoretical_pricing : Bool)
    (range_percent : ℝ) (res : PLResult)
    (h : calculate_pl positions credit market_data use_theoretical_pricing
      range_percent = Except.ok res)
    (hrp0 : 0 ≤ range_percent) (_hrp1 : range_percent ≤ 1)
    (hstrikes : ∀ p ∈ positions, 0 ≤ p.strike)
    (pos : Position) (hmem : pos ∈ positions) (k : ℤ) (hk : pos.strike = (k : ℝ)) :
    (k : ℝ) ∈ res.data.map DataPoint.price := by
  rw [calculate_pl_ok positions credit market_data use_theoretical_pricing
    range_percent res h, calculate_pl_core_prices]
  unfold allPricesOf
  rw [mem_sortedDedup]
  apply List.mem_append_left
  have hsmem : pos.strike ∈ positions.map Position.strike :=
    List.mem_map_of_mem _ hmem
  have hmin : minStrikeOf positions ≤ pos.strike := foldr_min_le _ _ _ hsmem
  have hmax : pos.strike ≤ maxStrikeOf positions := le_foldr_max _ _ _ hsmem
  have hmin0 : 0 ≤ minStrikeOf positions := by
    apply foldr_min_nonneg _ _ (headD_strike_nonneg positions hstrikes)
    intro a ha
    obtain ⟨p, hp, rfl⟩ := List.mem_map.mp ha
    exact hstrikes p hp
  have hmax0 : 0 ≤ maxStrikeOf positions :=
    foldr_max_nonneg _ _ (headD_strike_nonneg positions hstrikes)
  have hstart : gridStart positions range_percent ≤ k := by
    have h1 : minStrikeOf positions * (1 - range_percent) ≤ (k : ℝ) := by
      calc minStrikeOf positions * (1 - range_percent) ≤ minStrikeOf positions :=
            mul_le_of_le_one_right hmin0 (by linarith)
        _ ≤ pos.strike := hmin
        _ = (k : ℝ) := hk
    have h2 := Int.floor_le_floor h1
    rwa [Int.floor_intCast] at h2
  have hstop : k ≤ gridStop positions range_percent := by
    have h1 : (k : ℝ) ≤ maxStrikeOf positions * (1 + range_percent) := by
      calc (k : ℝ) = pos.strike := hk.symm
        _ ≤ maxStrikeOf positions := hmax
        _ ≤ maxStrikeOf positions * (1 + range_percent) :=
            le_mul_of_one_le_right hmax0 (by linarith)
    have h2 := Int.ceil_le_ceil h1
    rwa [Int.ceil_intCast] at h2
  exact gridPrices_mem _ _ k hstart hstop

/-- Witness for the amended C5 statement: the integer strike 100 of a single
long call is on the returned price grid. -/
theorem integral_strike_in_grid_witness :
    ((100 : ℤ) : ℝ) ∈
      (calculate_pl_core [unitCallPos] 0 none true (1 / 2)).data.map DataPoint.price :=
  integral_strike_in_grid [unitCallPos] 0 none true (1 / 2) _ rfl (by norm_num)
    (by norm_num) (by simp [unitCallPos]) unitCallPos (by simp) 100
    (by norm_num [unitCallPos])

/-- The grid lower bound of the counterexample portfolio is 50. -/
theorem cexGridStart : gridStart [halfStrikePos] (1 / 2) = 50 := by
  unfold gridStart minStrikeOf
  show ⌊min (201 / 2 : ℝ) ((201 / 2 : ℝ)) * (1 - 1 / 2)⌋ = 50
  rw [show min (201 / 2 : ℝ) ((201 / 2 : ℝ)) * (1 - 1 / 2) = 201 / 4 by
    rw [min_self]; norm_num]
  rw [Int.floor_eq_iff]
  constructor <;> norm_num

/-- The grid upper bound of the counterexample portfolio is 151. -/
theorem cexGridStop : gridStop [halfStrikePos] (1 / 2) = 151 := by
  unfold gridStop maxStrikeOf
  show ⌈max (201 / 2 : ℝ) ((201 / 2 : ℝ)) * (1 + 1 / 2)⌉ = 151
  rw [show max (201 / 2 : ℝ) ((201 / 2 : ℝ)) * (1 + 1 / 2) = 603 / 4 by
    rw [max_self]; norm_num]
  rw [Int.ceil_eq_iff]
  constructor <;> norm_num

/-- The breakeven check points of the counterexample portfolio. -/
theorem cexCheckPoints : checkPointsOf [halfStrikePos] (1 / 2) = [(50 : ℝ), 201 / 2, 151] := by
  unfold checkPointsOf
  rw [cexGridStart, cexGridStop]
  show sortedDedup [(50 : ℝ), (151 : ℝ), (201 / 2 : ℝ)] = _
  rw [show sortedDedup [(50 : ℝ), (151 : ℝ), (201 / 2 : ℝ)] =
    insertSortedDedup 50 (insertSortedDedup 151 (insertSortedDedup (201 / 2) []))
    from rfl]
  rw [show insertSortedDedup (201 / 2 : ℝ) [] = [201 / 2] from rfl]
  rw [insertSortedDedup, if_neg (by norm_num), if_neg (by norm_num)]
  rw [show insertSortedDedup (151 : ℝ) [] = [151] from rfl]
  rw [insertSortedDedup, if_pos (by norm_num)]

/-- Intrinsic P/L of the counterexample portfolio at 50. -/
theorem cexPl50 : get_intrinsic_pl [halfStrikePos] (-50) 50 = -50 := by
  simp only [get_intrinsic_pl, List.map_cons, List.map_nil, List.sum_cons,
    List.sum_nil, halfStrikePos, calculate_intrinsic_value]
  rw [show (50 : ℝ) - 201 / 2 = -(101 / 2) by norm_num, max_eq_left (by norm_num)]
  norm_num

/-- Intrinsic P/L of the counterexample portfolio at its strike. -/
theorem cexPlMid : get_intrinsic_pl [halfStrikePos] (-50) (201 / 2) = -50 := by
  simp only [get_intrinsic_pl, List.map_cons, List.map_nil, List.sum_cons,
    List.sum_nil, halfStrikePos, calculate_intrinsic_value]
  rw [show (201 / 2 : ℝ) - 201 / 2 = 0 by norm_num, max_self]
  norm_num

/-- Intrinsic P/L of the counterexample portfolio at 151. -/
theorem cexPl151 : get_intrinsic_pl [halfStrikePos] (-50) 151 = 5000 := by
  simp only [get_intrinsic_pl, List.map_cons, List.map_nil, List.sum_cons,
    List.sum_nil, halfStrikePos, calculate_intrinsic_value]
  rw [show (151 : ℝ) - 201 / 2 = 101 / 2 by norm_num, max_eq_right (by norm_num)]
  norm_num

/-- The exact breakeven list of the counterexample portfolio is `[101]`. -/
theorem cexBreakevens : breakevensOf [halfStrikePos] (-50) (1 / 2) = [(101 : ℝ)] := by
  unfold breakevensOf
  rw [cexCheckPoints]
  unfold computeBreakevens
  simp only [List.tail_cons, List.zip_cons_cons, List.zip_nil_right,
    List.flatMap_cons, List.flatMap_nil]
  rw [show List.getLast? [(50 : ℝ), 201 / 2, 151] = some 151 from rfl]
  simp only [cexPl50, cexPlMid, cexPl151]
  rw [if_neg (by norm_num : ¬((-50 : ℝ) = 0)),
    if_neg (by norm_num : ¬((-50 : ℝ) * -50 < 0)),
    if_neg (by norm_num : ¬((-50 : ℝ) = 0)),
    if_pos (by norm_num : ((-50 : ℝ) * 5000 < 0)),
    if_neg (by norm_num : ¬((5000 : ℝ) = 0))]
  unfold interpRoot
  norm_num

/-- C5 counterexample: for the single-position portfolio with the
non-integer strike 100.5, credit −50 and no market data, `calculate_pl`
returns a curve whose price sequence does not contain the strike:
the grid holds only integers, and the sole exact breakeven is 101. -/
theorem strike_missing_from_grid_cex :
    calculate_pl [halfStrikePos] (-50) none true (1 / 2) =
      Except.ok (calculate_pl_core [halfStrikePos] (-50) none true (1 / 2)) ∧
      ((201 : ℝ) / 2) ∉
        ((calculate_pl_core [halfStrikePos] (-50) none true (1 / 2)).data.map
          DataPoint.price) := by
  refine ⟨rfl, ?_⟩
  rw [calculate_pl_core_prices]
  unfold allPricesOf
  rw [mem_sortedDedup]
  intro hmem
  rcases List.mem_append.mp hmem with hg | hb
  · obtain ⟨j, hj⟩ := gridPrices_int _ _ _ hg
    have h2 : (201 : ℝ) = 2 * (j : ℝ) := by linarith [hj]
    have h3 : (201 : ℤ) = 2 * j := by exact_mod_cast h2
    omega
  · rw [cexBreakevens] at hb
    have := List.mem_singleton.mp hb
    norm_num at this

/-- Witness for C3 at a concrete input. -/
theorem american_fd_greeks_witness :
    calculate_american_greeks_finite_diff .C 100 100 30 (1 / 20) (1 / 5) 0 =
      specFiniteDiffGreeks .C 100 100 30 (1 / 20) (1 / 5) 0 :=
  american_fd_greeks .C 100 100 30 (1 / 20) (1 / 5) 0 (by norm_num) (by norm_num)
    (by norm_num) (by norm_num)

/-- C10: a position's `manual_iv` override of `0` (or a missing override) is
falsy under Python's `or`, so the position is priced with the market
snapshot's implied volatility, never with volatility `0`; a nonzero override
is used as-is.  The same rule governs the `dividend_yield` override.  The
conjuncts spell out the override semantics and show that the per-position
Greeks, theoretical value, theoretical P/L and the `positions_with_greeks`
summary of `calculate_pl` are all computed with exactly these effective
values. -/
theorem manual_iv_falsy_override (positions : List Position) (credit : ℝ)
    (md : MarketData) (range_percent : ℝ) (stock_price : ℝ) (pos : Position)
    (v : ℝ) (hv : v ≠ 0) :
    (orDefault (some 0) md.implied_volatility = md.implied_volatility) ∧
    (orDefault none md.implied_volatility = md.implied_volatility) ∧
    (orDefault (some v) md.implied_volatility = v) ∧
    (positionIV pos md =
      match pos.manual_iv with
      | none => md.implied_volatility
      | some w => if w = 0 then md.implied_volatility else w) ∧
    (positionDivYield pos md =
      match pos.dividend_yield with
      | none => md.dividend_yield.getD 0
      | some w => if w = 0 then md.dividend_yield.getD 0 else w) ∧
    ((analyzePosition md pos).theoretical_value =
      calculate_black_scholes_price pos.type md.current_price pos.strike
        (calculate_days_to_expiration pos) md.risk_free_rate (positionIV pos md)
        (positionDivYield pos md) (positionStyle pos)) ∧
    ((analyzePosition md pos).greeks.delta =
      (calculate_option_greeks pos.type md.current_price pos.strike
        (calculate_days_to_expiration pos) md.risk_free_rate (positionIV pos md)
        (positionDivYield pos md) (positionStyle pos)).delta * pos.qty) ∧
    (get_theoretical_pl positions credit md stock_price =
      credit + (positions.map (fun p =>
        (p.qty : ℝ) * calculate_black_scholes_price p.type stock_price p.strike
          (calculate_days_to_expiration p) md.risk_free_rate (positionIV p md)
          (positionDivYield p md) (positionStyle p) * 100)).sum) ∧
    ((calculate_pl_core positions credit (some md) true
      range_percent).positions_with_greeks =
      some (positions.map (analyzePosition md))) :=
  ⟨if_pos rfl, rfl, if_neg hv, rfl, rfl, rfl, rfl, rfl, rfl⟩

/-- Witness for C10 at a concrete position and market snapshot. -/
theorem manual_iv_falsy_override_witness :
    (orDefault (some 0) (MarketData.mk 100 (1 / 5) (1 / 20) none).implied_volatility =
      (MarketData.mk 100 (1 / 5) (1 / 20) none).implied_volatility) ∧
    (orDefault none (MarketData.mk 100 (1 / 5) (1 / 20) none).implied_volatility =
      (MarketData.mk 100 (1 / 5) (1 / 20) none).implied_volatility) ∧
    (orDefault (some (3 / 10)) (MarketData.mk 100 (1 / 5) (1 / 20)
      none).implied_volatility = 3 / 10) ∧
    (positionIV unitCallPos (MarketData.mk 100 (1 / 5) (1 / 20) none) =
      match unitCallPos.manual_iv with
      | none => (MarketData.mk 100 (1 / 5) (1 / 20) none).implied_volatility
      | some w => if w = 0 then (MarketData.mk 100 (1 / 5) (1 / 20)
          none).implied_volatility else w) ∧
    (positionDivYield unitCallPos (MarketData.mk 100 (1 / 5) (1 / 20) none) =
      match unitCallPos.dividend_yield with
      | none => (MarketData.mk 100 (1 / 5) (1 / 20) none).dividend_yield.getD 0
      | some w => if w = 0 then (MarketData.mk 100 (1 / 5) (1 / 20)
          none).dividend_yield.getD 0 else w) ∧
    ((analyzePosition (MarketData.mk 100 (1 / 5) (1 / 20) none)
        unitCallPos).theoretical_value =
      calculate_black_scholes_price unitCallPos.type
        (MarketData.mk 100 (1 / 5) (1 / 20) none).current_price unitCallPos.strike
        (calculate_days_to_expiration unitCallPos)
        (MarketData.mk 100 (1 / 5) (1 / 20) none).risk_free_rate
        (positionIV unitCallPos (MarketData.mk 100 (1 / 5) (1 / 20) none))
        (positionDivYield unitCallPos (MarketData.mk 100 (1 / 5) (1 / 20) none))
        (positionStyle unitCallPos)) ∧
    ((analyzePosition (MarketData.mk 100 (1 / 5) (1 / 20) none)
        unitCallPos).greeks.delta =
      (calculate_option_greeks unitCallPos.type
        (MarketData.mk 100 (1 / 5) (1 / 20) none).current_price unitCallPos.strike
        (calculate_days_to_expiration unitCallPos)
        (MarketData.mk 100 (1 / 5) (1 / 20) none).risk_free_rate
        (positionIV unitCallPos (MarketData.mk 100 (1 / 5) (1 / 20) none))
        (positionDivYield unitCallPos (MarketData.mk 100 (1 / 5) (1 / 20) none))
        (positionStyle unitCallPos)).delta * unitCallPos.qty) ∧
    (get_theoretical_pl [unitCallPos] 0 (MarketData.mk 100 (1 / 5) (1 / 20) none) 90 =
      0 + ([unitCallPos].map (fun p =>
        (p.qty : ℝ) * calculate_black_scholes_price p.type 90 p.strike
          (calculate_days_to_expiration p)
          (MarketData.mk 100 (1 / 5) (1 / 20) none).risk_free_rate
          (positionIV p (MarketData.mk 100 (1 / 5) (1 / 20) none))
          (positionDivYield p (MarketData.mk 100 (1 / 5) (1 / 20) none))
          (positionStyle p) * 100)).sum) ∧
    ((calculate_pl_core [unitCallPos] 0 (some (MarketData.mk 100 (1 / 5) (1 / 20)
      none)) true (1 / 2)).positions_with_greeks =
      some ([unitCallPos].map (analyzePosition
        (MarketData.mk 100 (1 / 5) (1 / 20) none)))) :=
  manual_iv_falsy_override [unitCallPos] 0 (MarketData.mk 100 (1 / 5) (1 / 20) none)
    (1 / 2) 90 unitCallPos (3 / 10) (by norm_num)

end OptionViz

end
